import Mathlib

/-!
Verification of the import-scanner core (src/scanner_gui_v0.7.py).

This file gives a shallow embedding of the scanner's pure core:

* `resolve_from_import` — resolution of from-imports (source lines 25-31);
* the scanner walk `ImportScanner.scan` / `ImportScanner._scan_file`
  (lines 75-98), modelled over an abstract filesystem-walk result;
* `build_graph` / `find_cycles` (lines 100-108);
* `strongly_connected_components` — Tarjan's algorithm (lines 34-65),
  embedded with an explicit state record and a fuel parameter standing for
  the (finite) recursion depth of the Python implementation.

Python strings are embedded as Lean `String`; the Python string methods
used by the source (`split(".")`, `".".join`, `endswith`) are embedded
character-list-level so that all definitions evaluate by kernel reduction.
-/

/-- Split a character list at every occurrence of `sep`
    (embeds Python's `str.split` for a one-character separator:
    `"".split(".") = [""]`, separators are not collapsed). -/
def splitCharsOn (sep : Char) : List Char → List (List Char)
  | [] => [[]]
  | c :: cs =>
    let r := splitCharsOn sep cs
    if c = sep then [] :: r
    else match r with
      | [] => [[c]]
      | h :: t => (c :: h) :: t

/-- Python's `s.split(".")`. -/
def pySplitDot (s : String) : List String := (splitCharsOn '.' s.data).map String.mk

/-- Python's `sep.join(l)` for a one-character separator. -/
def pyJoin (sep : Char) (l : List String) : String := ⟨List.intercalate [sep] (l.map String.data)⟩

/-- Python's `s.endswith(suf)`. -/
def pyEndsWith (s suf : String) : Bool := suf.data.isSuffixOf s.data

/-! ## Resolver (source lines 20-31) -/

/-- The package parts of an importing module after the `level` adjustment:
    the first two statements of `resolve_from_import`,

    pkg_parts = current_fqn.split(".")[:-1]
    if level:
        pkg_parts = pkg_parts[: -level + 1] if level > 1 else pkg_parts

    For `level > 1` the Python slice `[: -level + 1]` has a negative stop
    `-(level - 1)`, i.e. it keeps the first `length - (level - 1)` elements,
    clamped at the empty list; `List.take` with truncated subtraction has
    exactly that semantics. -/
def adjustedPkgParts (current_fqn : String) (level : Nat) : List String :=
  let pkg_parts := (pySplitDot current_fqn).dropLast
  if level ≠ 0 then
    if 1 < level then pkg_parts.take (pkg_parts.length - (level - 1)) else pkg_parts
  else pkg_parts

/-- `resolve_from_import(current_fqn, level, module)`, source lines 25-31.
    `module = none` embeds Python `None`; note that Python's `if module:`
    also treats the empty string as falsy. -/
def resolve_from_import (current_fqn : String) (level : Nat) (module : Option String) : String :=
  let pkg_parts := adjustedPkgParts current_fqn level
  match module with
  | some m => if m ≠ "" then pyJoin '.' (pkg_parts ++ [m]) else pyJoin '.' pkg_parts
  | none => pyJoin '.' pkg_parts

/-! ## Scanner (source lines 70-98), over an abstract filesystem walk -/

/-- An import statement node as seen by `ast.walk`: either a plain
    `import a, b` node (with its list of dotted alias names) or a
    `from ... import ...` node with its `level` and optional `module`. -/
inductive PyStmt where
  | imp (names : List String)
  | impFrom (level : Nat) (module : Option String)
deriving DecidableEq

/-- One file produced by the `os.walk` enumeration: the directory path
    relative to the project root (as segments), the file name, and the
    outcome of `ast.parse` on its contents — `none` embeds a parse failure
    (the `except` branch of `_scan_file`), `some stmts` the Import /
    ImportFrom nodes of the parsed tree in `ast.walk` order. -/
structure SrcFile where
  dir : List String
  name : String
  src : Option (List PyStmt)
deriving DecidableEq

/-- The project filesystem as observed by `scan`: whether the resolved
    root exists and is a directory, the root path segments, and the files
    yielded by `os.walk` in walk order. -/
structure ProjectFS where
  rootOk : Bool
  root : List String
  files : List SrcFile
deriving DecidableEq

/-- The file sequence `os.walk(self.project_root)` actually yields:
    `os.walk` on a missing path or a non-directory raises nothing by
    default (`onerror=None`) and simply yields no entries. -/
def walkFiles (fs : ProjectFS) : List SrcFile := if fs.rootOk then fs.files else []

/-- One `module_info` record: `{"path": str(path), "imports": [...]}`. -/
structure ModRecord where
  path : String
  imports : List String
deriving DecidableEq

/-- `self.module_info`, a Python dict: association list in insertion order. -/
abbrev ModuleMap := List (String × ModRecord)

/-- Python dict assignment `d[k] = v`: overwrite in place if the key is
    present (keeping its position), otherwise append at the end. -/
def dictInsert (k : String) (v : ModRecord) : ModuleMap → ModuleMap
  | [] => [(k, v)]
  | (k', v') :: rest => if k' = k then (k, v) :: rest else (k', v') :: dictInsert k v rest

/-- `self.module_info[fqn]["imports"].append(x)` — append one import target
    to the record stored under `fqn` (dict keys are unique, so mapping over
    all entries touches exactly the one matching record). -/
def appendImp (fqn x : String) (m : ModuleMap) : ModuleMap :=
  m.map fun p => if p.1 = fqn then (p.1, ⟨p.2.path, p.2.imports ++ [x]⟩) else p

/-- `to_fqn` (source lines 20-22): `with_suffix("")` drops the last
    `.`-separated extension of the file name; a name with no dot, or a pure
    dotfile such as `".py"`, has no suffix in `pathlib` and is unchanged.
    (Names with a trailing dot never reach this function: `scan` only calls
    it on names ending in `".py"`.) -/
def dropLastSuffix (nm : String) : String :=
  let parts := pySplitDot nm
  if parts.length ≤ 1 then nm
  else if parts.length = 2 ∧ parts.headI = "" then nm
  else pyJoin '.' parts.dropLast

/-- `to_fqn(project_root, path)`: the relative path segments of the file,
    extension stripped, joined with `"."`. -/
def to_fqn (f : SrcFile) : String := pyJoin '.' (f.dir ++ [dropLastSuffix f.name])

/-- `str(Path(root) / file)` as stored in the record's `"path"` field. -/
def pathOf (fs : ProjectFS) (f : SrcFile) : String :=
  pyJoin '/' (fs.root ++ f.dir ++ [f.name])

/-- The per-file loop body of `_scan_file` (source lines 92-98): walk the
    parsed tree and append one target per alias of an `Import` node and one
    resolved target per `ImportFrom` node; a parse failure (lines 89-90)
    returns with the module map unchanged. -/
def scan_file (fqn : String) (src : Option (List PyStmt)) (m : ModuleMap) : ModuleMap :=
  match src with
  | none => m
  | some stmts =>
    stmts.foldl
      (fun m st =>
        match st with
        | .imp names => names.foldl (fun m a => appendImp fqn a m) m
        | .impFrom level module => appendImp fqn (resolve_from_import fqn level module) m)
      m

/-- The body of `scan`'s file loop (source lines 78-83): skip names not
    ending in `".py"`; otherwise insert a fresh record (imports empty) and
    then run `_scan_file` on the file. -/
def scanStep (fs : ProjectFS) (m : ModuleMap) (f : SrcFile) : ModuleMap :=
  if pyEndsWith f.name ".py" then
    scan_file (to_fqn f) f.src (dictInsert (to_fqn f) ⟨pathOf fs f, []⟩ m)
  else m

/-- `ImportScanner.scan` (source lines 75-83): clear `module_info` and fold
    the walk. -/
def scanModel (fs : ProjectFS) : ModuleMap := (walkFiles fs).foldl (scanStep fs) []

/-- `scan` as seen by the caller: the Python method has no failure path
    (`os.walk` swallows listing errors, `_scan_file` catches parse errors),
    so it always returns normally. -/
def scanExc (fs : ProjectFS) : Except String ModuleMap := Except.ok (scanModel fs)

/-- The list of import targets a successfully parsed file contributes
    (the net effect of `_scan_file` on its own record). -/
def extractImports (fqn : String) (stmts : List PyStmt) : List String :=
  stmts.foldl
    (fun acc st =>
      match st with
      | .imp names => acc ++ names
      | .impFrom level module => acc ++ [resolve_from_import fqn level module])
    []

/-! ## Graph and cycle detection (source lines 34-65, 100-108) -/

/-- The dependency graph `Dict[str, set]`: an association list from module
    FQN to its edge list; the list order stands for the (unspecified) dict
    and set iteration orders of the Python runtime. -/
abbrev Graph := List (String × List String)

/-- Python dict lookup `d.get(k)` on an association list (first match). -/
def alookup {β : Type} (k : String) : List (String × β) → Option β
  | [] => none
  | (k', v) :: rest => if k = k' then some v else alookup k rest

/-- `graph.get(v, ())`: the edge list of `v`, empty for a vertex that is
    not a key. -/
def edgesOf (g : Graph) (v : String) : List String := (alookup v g).getD []

/-- The key list of the graph: exactly the vertices the top-level
    `for v in graph:` loop of `strongly_connected_components` iterates. -/
def sccRoots (g : Graph) : List String := g.map Prod.fst

/-- `build_graph` (source lines 100-104): project each record to the set of
    its imports; `List.dedup` stands for `set(...)`. -/
def build_graph (m : ModuleMap) : Graph := m.map fun p => (p.1, p.2.imports.dedup)

/-- The mutable state captured by the closure in
    `strongly_connected_components`: the discovery counter `index`, the
    maps `indices` and `lowlink`, the explicit `stack` (head = top), the
    `onstack` membership set (kept as a mirror list, exactly as the Python
    set mirrors the stack), and the accumulated `sccs`. -/
structure TState where
  idx : Nat
  ind : String → Option Nat
  low : String → Option Nat
  stack : List String
  onstack : List String
  sccs : List (List String)

/-- `indices[v]` (total read; the algorithm only reads assigned keys). -/
def getInd (s : TState) (v : String) : Nat := (s.ind v).getD 0

/-- `lowlink[v]` (total read; the algorithm only reads assigned keys). -/
def getLow (s : TState) (v : String) : Nat := (s.low v).getD 0

/-- The entry code of `dfs(v)` (source lines 41-44):
    `indices[v] = lowlink[v] = index; index += 1; stack.append(v);
    onstack.add(v)`. -/
def pushV (v : String) (s : TState) : TState :=
  { idx := s.idx + 1
    ind := fun x => if x = v then some s.idx else s.ind x
    low := fun x => if x = v then some s.idx else s.low x
    stack := v :: s.stack
    onstack := v :: s.onstack
    sccs := s.sccs }

/-- `lowlink[v] = min(lowlink[v], m)`. -/
def updLowMin (v : String) (m : Nat) (s : TState) : TState :=
  { s with low := fun x => if x = v then some (min (getLow s v) m) else s.low x }

/-- The pop loop of source lines 52-58: pop stack entries into `comp`
    (in pop order) until `v` inclusive, returning the component and the
    remaining stack. -/
def popUntil (v : String) : List String → List String × List String
  | [] => ([], [])
  | w :: rest =>
    if w = v then ([w], rest)
    else
      let p := popUntil v rest
      (w :: p.1, p.2)

/-- The completion code of `dfs(v)` (source lines 51-60): when
    `lowlink[v] == indices[v]`, pop the component rooted at `v`, remove its
    members from `onstack`, and record it only if its size exceeds 1. -/
def finishV (v : String) (s : TState) : TState :=
  if getLow s v = getInd s v then
    let p := popUntil v s.stack
    { s with
      stack := p.2
      onstack := p.1.foldl (fun os w => os.erase w) s.onstack
      sccs := if 1 < p.1.length then s.sccs ++ [p.1] else s.sccs }
  else s

/-- The body of the edge loop of `dfs(v)` (source lines 45-50), with the
    recursive call abstracted as `rec_`:
    unvisited targets are visited recursively and fold their final lowlink
    into `lowlink[v]`; visited targets still on the stack fold their index
    into `lowlink[v]`; other targets are skipped. -/
def edgeStep (rec_ : String → TState → Option TState) (v : String)
    (t : TState) (w : String) : Option TState :=
  if (t.ind w).isNone then
    (rec_ w t).map fun t' => updLowMin v (getLow t' w) t'
  else if t.onstack.contains w then
    some (updLowMin v (getInd t w) t)
  else
    some t

/-- `dfs(v)` (source lines 39-60). The Python function recurses on the
    actual call stack; the embedding passes an explicit `fuel` bound on the
    nesting depth (each nested call is on a vertex not yet in `indices`, so
    a fuel exceeding the number of distinct vertices never runs out; see
    `dfs_isSome`). Running out of fuel yields `none`. -/
def dfsF (g : Graph) : Nat → String → TState → Option TState
  | 0, _, _ => none
  | fuel + 1, v, s =>
    ((edgesOf g v).foldlM (edgeStep (dfsF g fuel) v) (pushV v s)).map (finishV v)

/-- The initial state: `index = 0`, empty maps, empty stack, no components. -/
def initTState : TState := ⟨0, fun _ => none, fun _ => none, [], [], []⟩

/-- All vertices the algorithm can ever visit: the keys together with all
    edge targets.  Its cardinality bounds the DFS nesting depth. -/
def sccUniverse (g : Graph) : List String := (g.map Prod.fst ++ (g.map Prod.snd).flatten).dedup

/-- The fuel handed to every root call: strictly more than the number of
    distinct visitable vertices, hence never exhausted. -/
def tarjanFuel (g : Graph) : Nat := (sccUniverse g).length + 1

/-- `strongly_connected_components(graph)` (source lines 34-65): run `dfs`
    from every not-yet-visited key in key order and return the recorded
    components.  The `none` fallback is dead code (the fuel suffices,
    see `scc_run_isSome`) and returns the empty list. -/
def strongly_connected_components (g : Graph) : List (List String) :=
  match (sccRoots g).foldlM
      (fun s v => if (s.ind v).isNone then dfsF g (tarjanFuel g) v s else some s)
      initTState with
  | some s => s.sccs
  | none => []

/-- `find_cycles` (source lines 106-108). -/
def find_cycles (m : ModuleMap) : List (List String) :=
  strongly_connected_components (build_graph m)

/-- One step along a graph edge: `w` is among the recorded edge targets
    of `u`. -/
def gstep (g : Graph) (u w : String) : Prop := w ∈ edgesOf g u

/-- Reachability along zero or more graph edges. -/
def reach (g : Graph) : String → String → Prop := Relation.ReflTransGen (gstep g)

/-! ## Concrete scenarios -/

/-- The end-to-end scenario of the spec: top-level files `a`, `b`, `c`, `d`
    where `a` imports `b`, `b` imports `c`, `c` contains `from . import a`
    (an ImportFrom node with level 1 and no module), and `d` has no
    imports. -/
def fsABC : ProjectFS :=
  ⟨true, [],
    [⟨[], "a.py", some [.imp ["b"]]⟩,
     ⟨[], "b.py", some [.imp ["c"]]⟩,
     ⟨[], "c.py", some [.impFrom 1 none]⟩,
     ⟨[], "d.py", some []⟩]⟩

/-- A scan with one parseable sibling and one file whose source fails to
    parse. -/
def fsParseFail : ProjectFS :=
  ⟨true, [],
    [⟨[], "good.py", some [.imp ["os"]]⟩,
     ⟨[], "bad.py", none⟩]⟩

/-- A project whose root path is missing or not a directory; `os.walk`
    yields nothing for it regardless of what the directory would contain. -/
def fsBadRoot : ProjectFS := ⟨false, ["proj"], [⟨[], "x.py", some []⟩]⟩

/-! ## Auxiliary definitions used by the proofs -/

/-- The import targets contributed by a single statement node. -/
def stmtTargets (fqn : String) : PyStmt → List String
  | .imp names => names
  | .impFrom level module => [resolve_from_import fqn level module]

/-- The record a `.py` file ends up with after `_scan_file`. -/
def importsOf (f : SrcFile) : List String :=
  match f.src with
  | none => []
  | some st => extractImports (to_fqn f) st

/-- Drop `k` trailing segments one at a time, clamping at the empty list —
    the spec's wording for the relative-import adjustment
    ("drop (level − 1) trailing segments from package parts, clamped at
    the empty sequence"). -/
def dropTrailing : Nat → List String → List String
  | 0, l => l
  | k + 1, l => dropTrailing k l.dropLast

/-- The state invariant of the embedded Tarjan loop.  `getInd`/`getLow`
    are only applied to visited vertices throughout. -/
structure TInv (g : Graph) (s : TState) : Prop where
  ind_lt : ∀ v i, s.ind v = some i → i < s.idx
  low_le : ∀ v i, s.ind v = some i → ∃ l, s.low v = some l ∧ l ≤ i
  stack_vis : ∀ v ∈ s.stack, (s.ind v).isSome
  stack_sorted : s.stack.Pairwise fun a b => getInd s b < getInd s a
  onstack_eq : s.onstack = s.stack
  nodups : (s.sccs.flatten ++ s.stack).Nodup
  sccs_vis : ∀ C ∈ s.sccs, ∀ v ∈ C, (s.ind v).isSome
  sccs_len : ∀ C ∈ s.sccs, 1 < C.length
  sccs_reach : ∀ C ∈ s.sccs, ∀ u ∈ C, ∀ v ∈ C, reach g u v
  lowwit : ∀ u ∈ s.stack, ∃ x, x ∈ s.stack ∧ s.ind x = some (getLow s u) ∧ reach g u x
  vis_univ : ∀ v, (s.ind v).isSome → v ∈ sccUniverse g

/-- Postcondition of one completed `dfs(v)` call, relating the entry state
    `s` to the exit state `s'`. -/
structure DfsPost (g : Graph) (v : String) (s s' : TState) : Prop where
  inv : TInv g s'
  frame : ∀ x, (s.ind x).isSome → s'.ind x = s.ind x ∧ s'.low x = s.low x
  idx_lt : s.idx < s'.idx
  ind_v : s'.ind v = some s.idx
  new_lb : ∀ x i, (s.ind x).isNone → s'.ind x = some i → s.idx ≤ i
  new_reach : ∀ x, (s'.ind x).isSome → (s.ind x).isNone → reach g v x
  shape :
    (s'.stack = s.stack ∧ getLow s' v = getInd s' v) ∨
    (∃ Q, s'.stack = Q ++ v :: s.stack ∧ getLow s' v < getInd s' v ∧
      ∀ u ∈ Q, getLow s' v ≤ getLow s' u ∧ getLow s' u < getInd s' u ∧ s.idx < getInd s' u)

/-- Invariant of the edge loop of `dfs(v)`: `s` is the state at entry to
    `dfs(v)` (before the push), `t` the current state. -/
structure FoldInv (g : Graph) (v : String) (s t : TState) : Prop where
  inv : TInv g t
  frame : ∀ x, (s.ind x).isSome → t.ind x = s.ind x ∧ t.low x = s.low x
  idx_lt : s.idx < t.idx
  ind_v : t.ind v = some s.idx
  new_lb : ∀ x i, (s.ind x).isNone → t.ind x = some i → s.idx ≤ i
  new_reach : ∀ x, (t.ind x).isSome → (s.ind x).isNone → reach g v x
  shape : ∃ Q, t.stack = Q ++ v :: s.stack ∧
    ∀ u ∈ Q, getLow t v ≤ getLow t u ∧ getLow t u < getInd t u ∧ s.idx < getInd t u

/-- A shared concrete two-cycle used to witness the SCC claims. -/
def gPair : Graph := [("a", ["b"]), ("b", ["a"])]

/-- Number of not-yet-visited vertices of the universe. -/
def countUnvisited (g : Graph) (s : TState) : Nat :=
  (sccUniverse g).countP fun x => (s.ind x).isNone

/-! ## Concrete evaluations of the embedding -/

example : resolve_from_import "pkg.sub.mod" 1 (some "sibling") = "pkg.sub.sibling" := by decide
example : resolve_from_import "top.mod" 2 (some "other") = "other" := by decide
example : resolve_from_import "a" 0 (some "x.y") = "x.y" := by decide
example : resolve_from_import "pkg.mod" 0 (some "x.y") = "pkg.x.y" := by decide
example : resolve_from_import "c" 1 none = "" := by decide

example : strongly_connected_components [("a", ["b"]), ("b", ["a"])] = [["b", "a"]] := by decide
example : strongly_connected_components [("M", ["M"])] = [] := by decide
example :
    strongly_connected_components [("a", ["b"]), ("b", ["c"]), ("c", [""]), ("d", [])] = [] := by
  decide
example :
    strongly_connected_components [("a", ["b"]), ("b", ["c"]), ("c", ["a"]), ("d", [])]
      = [["c", "b", "a"]] := by decide


/-! ## Association-list and scan lemmas -/

theorem alookup_dictInsert_self (k : String) (v : ModRecord) (m : ModuleMap) :
    alookup k (dictInsert k v m) = some v := by
  induction m with
  | nil => simp [dictInsert, alookup]
  | cons p rest ih =>
    obtain ⟨k', v'⟩ := p
    by_cases h : k' = k
    · subst h; simp [dictInsert, alookup]
    · rw [dictInsert, if_neg h, alookup, if_neg (Ne.symm h)]
      exact ih

theorem alookup_dictInsert_other (k k' : String) (v : ModRecord) (m : ModuleMap)
    (h : k' ≠ k) : alookup k' (dictInsert k v m) = alookup k' m := by
  induction m with
  | nil => simp [dictInsert, alookup, h]
  | cons p rest ih =>
    obtain ⟨k₀, v₀⟩ := p
    by_cases h0 : k₀ = k
    · subst h0; rw [dictInsert, if_pos rfl, alookup, if_neg h, alookup, if_neg h]
    · rw [dictInsert, if_neg h0, alookup, alookup]
      by_cases h1 : k' = k₀
      · rw [if_pos h1, if_pos h1]
      · rw [if_neg h1, if_neg h1]; exact ih

theorem appendImp_cons (fqn x k₀ : String) (v₀ : ModRecord) (rest : ModuleMap) :
    appendImp fqn x ((k₀, v₀) :: rest)
      = (if k₀ = fqn then (k₀, ⟨v₀.path, v₀.imports ++ [x]⟩) else (k₀, v₀))
          :: appendImp fqn x rest := by
  simp only [appendImp, List.map]

theorem alookup_appendImp_self (fqn x : String) (m : ModuleMap) :
    alookup fqn (appendImp fqn x m)
      = (alookup fqn m).map fun r => ⟨r.path, r.imports ++ [x]⟩ := by
  induction m with
  | nil => simp [appendImp, alookup]
  | cons p rest ih =>
    obtain ⟨k₀, v₀⟩ := p
    rw [appendImp_cons]
    by_cases h : k₀ = fqn
    · subst h; rw [if_pos rfl, alookup, if_pos rfl, alookup, if_pos rfl]; rfl
    · rw [if_neg h, alookup, if_neg (Ne.symm h), alookup, if_neg (Ne.symm h)]
      exact ih

theorem alookup_appendImp_other (fqn k x : String) (m : ModuleMap) (h : k ≠ fqn) :
    alookup k (appendImp fqn x m) = alookup k m := by
  induction m with
  | nil => simp [appendImp, alookup]
  | cons p rest ih =>
    obtain ⟨k₀, v₀⟩ := p
    rw [appendImp_cons]
    by_cases h0 : k₀ = fqn
    · subst h0
      rw [if_pos rfl, alookup, if_neg h, alookup, if_neg h]; exact ih
    · rw [if_neg h0, alookup, alookup]
      by_cases h1 : k = k₀
      · rw [if_pos h1, if_pos h1]
      · rw [if_neg h1, if_neg h1]; exact ih

theorem extractImports_eq (fqn : String) (stmts : List PyStmt) :
    extractImports fqn stmts = (stmts.map (stmtTargets fqn)).flatten := by
  suffices h : ∀ (l : List PyStmt) (acc : List String),
      l.foldl
        (fun acc st =>
          match st with
          | .imp names => acc ++ names
          | .impFrom level module => acc ++ [resolve_from_import fqn level module])
        acc = acc ++ (l.map (stmtTargets fqn)).flatten by
    simpa [extractImports] using h stmts []
  intro l
  induction l with
  | nil => intro acc; simp
  | cons st rest ih =>
    intro acc
    cases st with
    | imp names => simp [List.foldl, ih, stmtTargets]
    | impFrom level module => simp [List.foldl, ih, stmtTargets]

theorem alookup_namesFold_self (fqn : String) (names : List String) :
    ∀ m : ModuleMap,
      alookup fqn (names.foldl (fun m a => appendImp fqn a m) m)
        = (alookup fqn m).map fun r => ⟨r.path, r.imports ++ names⟩ := by
  induction names with
  | nil =>
    intro m
    cases h : alookup fqn m <;> simp [h]
  | cons a rest ih =>
    intro m
    rw [List.foldl, ih, alookup_appendImp_self]
    cases h : alookup fqn m <;> simp [h]

theorem alookup_namesFold_other (fqn k : String) (names : List String) (h : k ≠ fqn) :
    ∀ m : ModuleMap,
      alookup k (names.foldl (fun m a => appendImp fqn a m) m) = alookup k m := by
  induction names with
  | nil => intro m; rfl
  | cons a rest ih => intro m; rw [List.foldl, ih, alookup_appendImp_other _ _ _ _ h]

theorem alookup_scan_file_self (fqn : String) (stmts : List PyStmt) :
    ∀ m : ModuleMap,
      alookup fqn (scan_file fqn (some stmts) m)
        = (alookup fqn m).map fun r => ⟨r.path, r.imports ++ extractImports fqn stmts⟩ := by
  induction stmts with
  | nil =>
    intro m
    cases h : alookup fqn m <;> simp [scan_file, extractImports, h]
  | cons st rest ih =>
    intro m
    cases st with
    | imp names =>
      have hunfold : scan_file fqn (some (PyStmt.imp names :: rest)) m
          = scan_file fqn (some rest) (names.foldl (fun m a => appendImp fqn a m) m) := rfl
      rw [hunfold, ih, alookup_namesFold_self]
      cases h : alookup fqn m <;>
        simp [h, extractImports_eq, stmtTargets, List.append_assoc]
    | impFrom level module =>
      have hunfold : scan_file fqn (some (PyStmt.impFrom level module :: rest)) m
          = scan_file fqn (some rest)
              (appendImp fqn (resolve_from_import fqn level module) m) := rfl
      rw [hunfold, ih, alookup_appendImp_self]
      cases h : alookup fqn m <;>
        simp [h, extractImports_eq, stmtTargets, List.append_assoc]

theorem alookup_scan_file_other (fqn k : String) (src : Option (List PyStmt)) (h : k ≠ fqn) :
    ∀ m : ModuleMap, alookup k (scan_file fqn src m) = alookup k m := by
  cases src with
  | none => intro m; rfl
  | some stmts =>
    induction stmts with
    | nil => intro m; rfl
    | cons st rest ih =>
      intro m
      cases st with
      | imp names =>
        have hunfold : scan_file fqn (some (PyStmt.imp names :: rest)) m
            = scan_file fqn (some rest) (names.foldl (fun m a => appendImp fqn a m) m) := rfl
        rw [hunfold, ih, alookup_namesFold_other _ _ _ h]
      | impFrom level module =>
        have hunfold : scan_file fqn (some (PyStmt.impFrom level module :: rest)) m
            = scan_file fqn (some rest)
                (appendImp fqn (resolve_from_import fqn level module) m) := rfl
        rw [hunfold, ih, alookup_appendImp_other _ _ _ _ h]

theorem alookup_scanStep_self (fs : ProjectFS) (f : SrcFile) (m : ModuleMap)
    (hpy : pyEndsWith f.name ".py" = true) :
    alookup (to_fqn f) (scanStep fs m f) = some ⟨pathOf fs f, importsOf f⟩ := by
  rw [scanStep, if_pos hpy]
  cases hsrc : f.src with
  | none =>
    show alookup (to_fqn f) (dictInsert (to_fqn f) ⟨pathOf fs f, []⟩ m) = _
    rw [alookup_dictInsert_self]
    simp [importsOf, hsrc]
  | some stmts =>
    rw [alookup_scan_file_self, alookup_dictInsert_self]
    simp [importsOf, hsrc]

theorem alookup_scanStep_other (fs : ProjectFS) (f : SrcFile) (m : ModuleMap) (k : String)
    (h : pyEndsWith f.name ".py" = true → k ≠ to_fqn f) :
    alookup k (scanStep fs m f) = alookup k m := by
  by_cases hpy : pyEndsWith f.name ".py" = true
  · rw [scanStep, if_pos hpy, alookup_scan_file_other _ _ _ (h hpy),
      alookup_dictInsert_other _ _ _ _ (h hpy)]
  · rw [scanStep, if_neg hpy]

theorem alookup_scanFold_frozen (fs : ProjectFS) (k : String) :
    ∀ (files : List SrcFile) (m : ModuleMap),
      (∀ g ∈ files, pyEndsWith g.name ".py" = true → k ≠ to_fqn g) →
      alookup k (files.foldl (scanStep fs) m) = alookup k m := by
  intro files
  induction files with
  | nil => intro m _; rfl
  | cons g rest ih =>
    intro m hall
    rw [List.foldl, ih _ fun g' hg' => hall g' (List.mem_cons_of_mem _ hg'),
      alookup_scanStep_other _ _ _ _ (hall g (List.mem_cons_self _ _))]

/-- Workhorse: after a scan, a walked `.py` file whose FQN is not shared
    with any other walked `.py` file is recorded with its path and exactly
    the imports `_scan_file` extracts from it. -/
theorem scan_foldl_lookup (fs : ProjectFS) :
    ∀ (files : List SrcFile) (m : ModuleMap) (f : SrcFile),
      f ∈ files → pyEndsWith f.name ".py" = true →
      (∀ f' ∈ files, pyEndsWith f'.name ".py" = true → to_fqn f' = to_fqn f → f' = f) →
      alookup (to_fqn f) (files.foldl (scanStep fs) m) = some ⟨pathOf fs f, importsOf f⟩ := by
  intro files
  induction files with
  | nil => intro m f hf; cases hf
  | cons g rest ih =>
    intro m f hf hpy huniq
    by_cases hmem : f ∈ rest
    · exact ih _ f hmem hpy fun f' hf' => huniq f' (List.mem_cons_of_mem _ hf')
    · have hfg : f = g := by
        rcases List.mem_cons.mp hf with h | h
        · exact h
        · exact absurd h hmem
      subst hfg
      have hfrozen : ∀ g' ∈ rest, pyEndsWith g'.name ".py" = true → to_fqn f ≠ to_fqn g' := by
        intro g' hg' hpy' heq
        have : g' = f := huniq g' (List.mem_cons_of_mem _ hg') hpy' heq.symm
        exact hmem (this ▸ hg')
      rw [List.foldl, alookup_scanFold_frozen fs _ rest _ hfrozen,
        alookup_scanStep_self _ _ _ hpy]

theorem keys_appendImp (fqn x : String) (m : ModuleMap) :
    (appendImp fqn x m).map Prod.fst = m.map Prod.fst := by
  induction m with
  | nil => rfl
  | cons p rest ih =>
    obtain ⟨k₀, v₀⟩ := p
    rw [appendImp_cons]
    by_cases h : k₀ = fqn <;> simp [h, ih]

theorem keys_namesFold (fqn : String) (names : List String) :
    ∀ m : ModuleMap,
      (names.foldl (fun m a => appendImp fqn a m) m).map Prod.fst = m.map Prod.fst := by
  induction names with
  | nil => intro m; rfl
  | cons a rest ih => intro m; rw [List.foldl, ih, keys_appendImp]

theorem keys_scan_file (fqn : String) (src : Option (List PyStmt)) :
    ∀ m : ModuleMap, (scan_file fqn src m).map Prod.fst = m.map Prod.fst := by
  cases src with
  | none => intro m; rfl
  | some stmts =>
    induction stmts with
    | nil => intro m; rfl
    | cons st rest ih =>
      intro m
      cases st with
      | imp names =>
        have hunfold : scan_file fqn (some (PyStmt.imp names :: rest)) m
            = scan_file fqn (some rest) (names.foldl (fun m a => appendImp fqn a m) m) := rfl
        rw [hunfold, ih, keys_namesFold]
      | impFrom level module =>
        have hunfold : scan_file fqn (some (PyStmt.impFrom level module :: rest)) m
            = scan_file fqn (some rest)
                (appendImp fqn (resolve_from_import fqn level module) m) := rfl
        rw [hunfold, ih, keys_appendImp]

theorem mem_keys_dictInsert (k k' : String) (v : ModRecord) (m : ModuleMap) :
    k' ∈ (dictInsert k v m).map Prod.fst ↔ k' = k ∨ k' ∈ m.map Prod.fst := by
  induction m with
  | nil => simp [dictInsert]
  | cons p rest ih =>
    obtain ⟨k₀, v₀⟩ := p
    by_cases h : k₀ = k
    · subst h; simp [dictInsert]
    · rw [dictInsert, if_neg h]
      simp only [List.map, List.mem_cons, ih]
      tauto

theorem mem_keys_scanStep (fs : ProjectFS) (m : ModuleMap) (f : SrcFile) (k : String) :
    k ∈ (scanStep fs m f).map Prod.fst
      ↔ (pyEndsWith f.name ".py" = true ∧ k = to_fqn f) ∨ k ∈ m.map Prod.fst := by
  by_cases hpy : pyEndsWith f.name ".py" = true
  · rw [scanStep, if_pos hpy, keys_scan_file, mem_keys_dictInsert]
    simp [hpy]
  · rw [scanStep, if_neg hpy]
    simp [hpy]

theorem mem_keys_scanFold (fs : ProjectFS) (k : String) :
    ∀ (files : List SrcFile) (m : ModuleMap),
      k ∈ (files.foldl (scanStep fs) m).map Prod.fst
        ↔ (∃ f, f ∈ files ∧ pyEndsWith f.name ".py" = true ∧ to_fqn f = k)
            ∨ k ∈ m.map Prod.fst := by
  intro files
  induction files with
  | nil => intro m; simp
  | cons g rest ih =>
    intro m
    rw [List.foldl, ih, mem_keys_scanStep]
    constructor
    · rintro (⟨f, hf, hpy, hfqn⟩ | ⟨hpy, hk⟩ | hm)
      · exact Or.inl ⟨f, List.mem_cons_of_mem _ hf, hpy, hfqn⟩
      · exact Or.inl ⟨g, List.mem_cons_self _ _, hpy, hk.symm⟩
      · exact Or.inr hm
    · rintro (⟨f, hf, hpy, hfqn⟩ | hm)
      · rcases List.mem_cons.mp hf with rfl | hf'
        · exact Or.inr (Or.inl ⟨hpy, hfqn.symm⟩)
        · exact Or.inl ⟨f, hf', hpy, hfqn⟩
      · exact Or.inr (Or.inr hm)

theorem scanFold_filter (fs : ProjectFS) :
    ∀ (files : List SrcFile) (m : ModuleMap),
      (files.filter fun f => pyEndsWith f.name ".py").foldl (scanStep fs) m
        = files.foldl (scanStep fs) m := by
  intro files
  induction files with
  | nil => intro m; rfl
  | cons g rest ih =>
    intro m
    by_cases hpy : pyEndsWith g.name ".py" = true
    · simp only [List.filter_cons, hpy, if_true, List.foldl]
      exact ih _
    · have hpy' : pyEndsWith g.name ".py" = false := by
        cases h : pyEndsWith g.name ".py"
        · rfl
        · exact absurd h hpy
      simp only [List.filter_cons, hpy', Bool.false_eq_true, if_false, List.foldl]
      rw [ih]
      have hid : scanStep fs m g = m := by rw [scanStep, if_neg hpy]
      rw [hid]

/-- C9: `scan` records a ModuleMap entry for a walked file iff the file's
    name ends with `".py"`; every other walked file is silently ignored —
    removing the non-`.py` files from the walk leaves the whole scan result
    unchanged, and the recorded keys are exactly the FQNs of the walked
    `.py` files. -/
theorem C9_py_files_only (fs : ProjectFS) :
    scanModel fs
      = scanModel ⟨fs.rootOk, fs.root, fs.files.filter fun f => pyEndsWith f.name ".py"⟩ ∧
    ∀ k : String,
      k ∈ (scanModel fs).map Prod.fst
        ↔ ∃ f, f ∈ walkFiles fs ∧ pyEndsWith f.name ".py" = true ∧ to_fqn f = k := by
  constructor
  · have hstep :
        scanStep ⟨fs.rootOk, fs.root, fs.files.filter fun f => pyEndsWith f.name ".py"⟩
          = scanStep fs := rfl
    show (walkFiles fs).foldl (scanStep fs) []
        = (walkFiles ⟨fs.rootOk, fs.root, fs.files.filter fun f => pyEndsWith f.name ".py"⟩).foldl
            (scanStep ⟨fs.rootOk, fs.root, fs.files.filter fun f => pyEndsWith f.name ".py"⟩) []
    rw [hstep]
    have hwalk :
        walkFiles ⟨fs.rootOk, fs.root, fs.files.filter fun f => pyEndsWith f.name ".py"⟩
          = (walkFiles fs).filter fun f => pyEndsWith f.name ".py" := by
      cases h : fs.rootOk <;> simp [walkFiles, h]
    rw [hwalk, scanFold_filter]
  · intro k
    rw [show scanModel fs = (walkFiles fs).foldl (scanStep fs) [] from rfl,
      mem_keys_scanFold]
    simp

/-! ## Resolver claims -/

theorem dropTrailing_eq_take (k : Nat) :
    ∀ l : List String, dropTrailing k l = l.take (l.length - k) := by
  induction k with
  | zero => intro l; simp [dropTrailing]
  | succ k ih =>
    intro l
    rw [dropTrailing, ih, List.dropLast_eq_take, List.length_take, List.take_take]
    congr 1
    omega

/-- C2: the claim states that an absolute from-import (level 0) resolves to
    the module name verbatim for every importing FQN.  The code instead
    prefixes the importing module's package parts: from `pkg.mod`, the
    absolute import of `x.y` is recorded as `pkg.x.y`.  (For a top-level
    importer the prefix is empty, which is why the slip is invisible in
    flat projects.) -/
theorem C2_absolute_import_prefixed :
    resolve_from_import "pkg.mod" 0 (some "x.y") = "pkg.x.y" ∧
    resolve_from_import "pkg.mod" 0 (some "x.y") ≠ "x.y" ∧
    resolve_from_import "a" 0 (some "x.y") = "x.y" := by decide

/-- C8: for every `level > 1`, `resolve_from_import` drops `level − 1`
    trailing segments from the importing module's package parts, clamped at
    the empty sequence (never an error); in particular
    `resolve_from_import "top.mod" 2 (some "other") = "other"`. -/
theorem C8_clamped_relative_resolution :
    (∀ (fqn : String) (level : Nat), 1 < level →
      adjustedPkgParts fqn level = dropTrailing (level - 1) ((pySplitDot fqn).dropLast)) ∧
    (∀ (fqn : String) (level : Nat), 1 < level →
      ((pySplitDot fqn).dropLast).length ≤ level - 1 → adjustedPkgParts fqn level = []) ∧
    (∀ (fqn mm : String) (level : Nat), 1 < level → mm ≠ "" →
      resolve_from_import fqn level (some mm)
        = pyJoin '.' (dropTrailing (level - 1) ((pySplitDot fqn).dropLast) ++ [mm])) ∧
    resolve_from_import "top.mod" 2 (some "other") = "other" := by
  have hA : ∀ (fqn : String) (level : Nat), 1 < level →
      adjustedPkgParts fqn level = dropTrailing (level - 1) ((pySplitDot fqn).dropLast) := by
    intro fqn level hlt
    have h0 : level ≠ 0 := by omega
    rw [adjustedPkgParts, if_pos h0, if_pos hlt, dropTrailing_eq_take]
  refine ⟨hA, ?_, ?_, by decide⟩
  · intro fqn level hlt hle
    rw [hA fqn level hlt, dropTrailing_eq_take, Nat.sub_eq_zero_of_le hle, List.take_zero]
  · intro fqn mm level hlt hmm
    rw [resolve_from_import, hA fqn level hlt, if_pos hmm]

/-- Witness for C8 at the spec's own example. -/
theorem C8_witness :
    (1 < 2 ∧ adjustedPkgParts "top.mod" 2 = dropTrailing 1 ((pySplitDot "top.mod").dropLast)) ∧
    resolve_from_import "top.mod" 2 (some "other")
      = pyJoin '.' (dropTrailing 1 ((pySplitDot "top.mod").dropLast) ++ ["other"]) :=
  ⟨⟨by decide, C8_clamped_relative_resolution.1 "top.mod" 2 (by decide)⟩,
    C8_clamped_relative_resolution.2.2.1 "top.mod" "other" 2 (by decide) (by decide)⟩

/-- C10: whenever the module name is absent (or empty) and the computed
    package parts are empty — e.g. any dot-free FQN with level 1 —
    `resolve_from_import` returns the empty string; concretely, the
    `from . import a` node of the top-level module `c` in the end-to-end
    scenario records `""` as its import target. -/
theorem C10_empty_resolution :
    (∀ (fqn : String) (level : Nat) (module : Option String),
      (module = none ∨ module = some "") → adjustedPkgParts fqn level = [] →
      resolve_from_import fqn level module = "") ∧
    (∀ (fqn : String) (module : Option String),
      (pySplitDot fqn).dropLast = [] → (module = none ∨ module = some "") →
      resolve_from_import fqn 1 module = "") ∧
    alookup "c" (scanModel fsABC) = some ⟨"c.py", [""]⟩ := by
  have hone : ∀ fqn : String, adjustedPkgParts fqn 1 = (pySplitDot fqn).dropLast := by
    intro fqn
    rw [adjustedPkgParts]
    simp
  have hcore : ∀ (fqn : String) (level : Nat) (module : Option String),
      (module = none ∨ module = some "") → adjustedPkgParts fqn level = [] →
      resolve_from_import fqn level module = "" := by
    intro fqn level module hmod hadj
    rcases hmod with rfl | rfl
    · rw [resolve_from_import, hadj]; rfl
    · rw [resolve_from_import, hadj]
      simp only [ne_eq, not_true_eq_false, if_false]
      rfl
  refine ⟨hcore, ?_, by decide⟩
  intro fqn module hparts hmod
  exact hcore fqn 1 module hmod (by rw [hone fqn, hparts])

/-- Witness for C10 at the scenario's from-import. -/
theorem C10_witness : resolve_from_import "c" 1 none = "" :=
  C10_empty_resolution.1 "c" 1 none (Or.inl rfl) (by decide)

/-! ## Scenario claims -/

/-- C1 counterexample: in the end-to-end scenario the claim expects exactly
    one cycle over `{a, b, c}`; the scanned project actually yields no
    cycle at all, because `from . import a` in the top-level module `c`
    resolves to `""` rather than `"a"`. -/
theorem C1_counterexample : find_cycles (scanModel fsABC) = [] := by decide

/-- C1 (amended): in the end-to-end scenario the built graph is
    `a→{b}`, `b→{c}`, `c→{""}` (not `c→{a}`), `find_cycles` returns no
    cycle, and the fourth module `d` has no outgoing edges and appears in
    no cycle. -/
theorem C1_amended_scenario :
    build_graph (scanModel fsABC)
      = [("a", ["b"]), ("b", ["c"]), ("c", [""]), ("d", [])] ∧
    resolve_from_import "c" 1 none = "" ∧
    find_cycles (scanModel fsABC) = [] ∧
    edgesOf (build_graph (scanModel fsABC)) "d" = [] := by decide

/-- C3 counterexample: in a scan where `bad.py` fails to parse, the claim
    expects `bad` to be absent from the module model; it is in fact
    present, with an empty imports list (the record is inserted before the
    parse is attempted). -/
theorem C3_counterexample :
    alookup "bad" (scanModel fsParseFail) = some ⟨"bad.py", []⟩ ∧
    alookup "good" (scanModel fsParseFail) = some ⟨"good.py", ["os"]⟩ := by decide

/-- C3 (amended): a walked `.py` file whose source fails to parse IS
    recorded in the module model, with its path and an empty imports list,
    while every sibling `.py` file (with an unshared FQN) is recorded with
    its correctly extracted imports, and the scan completes without
    surfacing an error. -/
theorem C3_parse_failure_isolated (fs : ProjectFS) (f : SrcFile)
    (hf : f ∈ walkFiles fs) (hpy : pyEndsWith f.name ".py" = true) (hbad : f.src = none)
    (huniq : ∀ f' ∈ walkFiles fs, pyEndsWith f'.name ".py" = true →
      to_fqn f' = to_fqn f → f' = f) :
    alookup (to_fqn f) (scanModel fs) = some ⟨pathOf fs f, []⟩ ∧
    (∀ g ∈ walkFiles fs, pyEndsWith g.name ".py" = true →
      (∀ f' ∈ walkFiles fs, pyEndsWith f'.name ".py" = true → to_fqn f' = to_fqn g → f' = g) →
      alookup (to_fqn g) (scanModel fs) = some ⟨pathOf fs g, importsOf g⟩) ∧
    scanExc fs = Except.ok (scanModel fs) := by
  refine ⟨?_, ?_, rfl⟩
  · have h := scan_foldl_lookup fs (walkFiles fs) [] f hf hpy huniq
    rw [show scanModel fs = (walkFiles fs).foldl (scanStep fs) [] from rfl, h,
      importsOf, hbad]
  · intro g hg hpyg huniqg
    exact scan_foldl_lookup fs (walkFiles fs) [] g hg hpyg huniqg

/-- Witness for C3 at the concrete two-file scan. -/
theorem C3_witness :
    alookup (to_fqn ⟨[], "bad.py", none⟩) (scanModel fsParseFail)
      = some ⟨pathOf fsParseFail ⟨[], "bad.py", none⟩, []⟩ :=
  (C3_parse_failure_isolated fsParseFail ⟨[], "bad.py", none⟩
    (by decide) (by decide) rfl (by decide)).1

/-- C4 counterexample: on a root that is missing or not a directory the
    claim expects a fatal `InvalidRoot` failure; `scan` actually completes
    normally (with an empty module map), because `os.walk` silently yields
    nothing for such a root and the method has no failure path. -/
theorem C4_counterexample :
    fsBadRoot.rootOk = false ∧
    scanExc fsBadRoot = Except.ok [] ∧ scanModel fsBadRoot = [] :=
  ⟨rfl, rfl, rfl⟩

/-- C4 (amended): when the project root does not exist or is not a
    directory, `scan` surfaces no error and simply produces an empty
    module map. -/
theorem C4_invalid_root_silent (fs : ProjectFS) (h : fs.rootOk = false) :
    scanModel fs = [] ∧ scanExc fs = Except.ok [] := by
  have hw : walkFiles fs = [] := by rw [walkFiles, h]; rfl
  have hm : scanModel fs = [] := by rw [scanModel, hw]; rfl
  exact ⟨hm, by rw [scanExc, hm]⟩

/-- Witness for C4 at the concrete invalid-root project. -/
theorem C4_witness : scanModel fsBadRoot = [] ∧ scanExc fsBadRoot = Except.ok [] :=
  C4_invalid_root_silent fsBadRoot rfl

/-! ## Tarjan invariants -/

theorem ind_pushV (v x : String) (s : TState) :
    (pushV v s).ind x = if x = v then some s.idx else s.ind x := rfl

theorem low_pushV (v x : String) (s : TState) :
    (pushV v s).low x = if x = v then some s.idx else s.low x := rfl

theorem ind_updLowMin (v : String) (m : Nat) (s : TState) :
    (updLowMin v m s).ind = s.ind := rfl

theorem stack_updLowMin (v : String) (m : Nat) (s : TState) :
    (updLowMin v m s).stack = s.stack := rfl

theorem getInd_updLowMin (v : String) (m : Nat) (s : TState) (x : String) :
    getInd (updLowMin v m s) x = getInd s x := rfl

theorem low_updLowMin_self (v : String) (m : Nat) (s : TState) :
    (updLowMin v m s).low v = some (min (getLow s v) m) := by
  simp [updLowMin]

theorem low_updLowMin_other (v : String) (m : Nat) (s : TState) (x : String) (h : x ≠ v) :
    (updLowMin v m s).low x = s.low x := by
  simp [updLowMin, h]

theorem getLow_updLowMin_self (v : String) (m : Nat) (s : TState) :
    getLow (updLowMin v m s) v = min (getLow s v) m := by
  rw [getLow, low_updLowMin_self]; rfl

theorem getLow_updLowMin_other (v : String) (m : Nat) (s : TState) (x : String) (h : x ≠ v) :
    getLow (updLowMin v m s) x = getLow s x := by
  rw [getLow, low_updLowMin_other _ _ _ _ h]; rfl

theorem alookup_mem {β : Type} (k : String) (l : List (String × β)) (b : β)
    (h : alookup k l = some b) : (k, b) ∈ l := by
  induction l with
  | nil => cases h
  | cons p rest ih =>
    obtain ⟨k₀, v₀⟩ := p
    rw [alookup] at h
    by_cases hk : k = k₀
    · rw [if_pos hk] at h
      cases h
      subst hk
      exact List.mem_cons_self _ _
    · rw [if_neg hk] at h
      exact List.mem_cons_of_mem _ (ih h)

theorem alookup_eq_none {β : Type} (k : String) (l : List (String × β))
    (h : k ∉ l.map Prod.fst) : alookup k l = none := by
  induction l with
  | nil => rfl
  | cons p rest ih =>
    obtain ⟨k₀, v₀⟩ := p
    rw [alookup, if_neg, ih]
    · intro hmem; exact h (List.mem_cons_of_mem _ hmem)
    · intro hk; exact h (by rw [hk]; exact List.mem_cons_self _ _)

theorem target_mem_univ (g : Graph) (v w : String) (h : w ∈ edgesOf g v) :
    w ∈ sccUniverse g := by
  rw [edgesOf] at h
  cases hl : alookup v g with
  | none => rw [hl] at h; cases h
  | some l =>
    rw [hl] at h
    have hmem : (v, l) ∈ g := alookup_mem v g l hl
    rw [sccUniverse, List.mem_dedup]
    refine List.mem_append_right _ ?_
    rw [List.mem_flatten]
    exact ⟨l, List.mem_map_of_mem Prod.snd hmem, h⟩

theorem root_mem_univ (g : Graph) (v : String) (h : v ∈ sccRoots g) :
    v ∈ sccUniverse g := by
  rw [sccUniverse, List.mem_dedup]
  exact List.mem_append_left _ h

theorem popUntil_eq (v : String) :
    ∀ Q rest : List String, v ∉ Q →
      popUntil v (Q ++ v :: rest) = (Q ++ [v], rest) := by
  intro Q
  induction Q with
  | nil => intro rest _; simp [popUntil]
  | cons a Q' ih =>
    intro rest hv
    have hav : a ≠ v := fun h => hv (h ▸ List.mem_cons_self _ _)
    rw [List.cons_append, popUntil, if_neg hav,
      ih rest fun h => hv (List.mem_cons_of_mem _ h)]
    rfl

theorem eraseFold_append :
    ∀ C rest : List String, C.foldl (fun os w => os.erase w) (C ++ rest) = rest := by
  intro C
  induction C with
  | nil => intro rest; rfl
  | cons c C' ih =>
    intro rest
    rw [List.cons_append, List.foldl, List.erase_cons_head]
    exact ih rest

theorem getInd_eq (s : TState) (x : String) (i : Nat) (h : s.ind x = some i) :
    getInd s x = i := by rw [getInd, h]; rfl

theorem getLow_eq (s : TState) (x : String) (l : Nat) (h : s.low x = some l) :
    getLow s x = l := by rw [getLow, h]; rfl

theorem getInd_pushV_self (v : String) (s : TState) : getInd (pushV v s) v = s.idx := by
  simp [getInd, pushV]

theorem getInd_pushV_other (v x : String) (s : TState) (h : x ≠ v) :
    getInd (pushV v s) x = getInd s x := by
  simp [getInd, pushV, h]

theorem getLow_pushV_self (v : String) (s : TState) : getLow (pushV v s) v = s.idx := by
  simp [getLow, pushV]

theorem getLow_pushV_other (v x : String) (s : TState) (h : x ≠ v) :
    getLow (pushV v s) x = getLow s x := by
  simp [getLow, pushV, h]

theorem push_foldInv (g : Graph) (s : TState) (v : String)
    (hinv : TInv g s) (hnew : (s.ind v).isNone) (huniv : v ∈ sccUniverse g) :
    FoldInv g v s (pushV v s) := by
  have hnone : s.ind v = none := Option.isNone_iff_eq_none.mp hnew
  have hvis_ne : ∀ x : String, (s.ind x).isSome → x ≠ v := by
    intro x hx hxv
    subst hxv
    rw [hnone] at hx
    simp at hx
  have hvstack : v ∉ s.stack := fun h => (hvis_ne v (hinv.stack_vis v h)) rfl
  have hinv' : TInv g (pushV v s) := by
    refine ⟨?_, ?_, ?_, ?_, ?_, ?_, ?_, ?_, ?_, ?_, ?_⟩
    · intro x i hx
      rw [ind_pushV] at hx
      by_cases hxv : x = v
      · rw [if_pos hxv] at hx
        cases hx
        show s.idx < s.idx + 1
        omega
      · rw [if_neg hxv] at hx
        have := hinv.ind_lt x i hx
        show i < s.idx + 1
        omega
    · intro x i hx
      rw [ind_pushV] at hx
      by_cases hxv : x = v
      · rw [if_pos hxv] at hx
        cases hx
        subst hxv
        exact ⟨s.idx, by rw [low_pushV, if_pos rfl], le_refl _⟩
      · rw [if_neg hxv] at hx
        obtain ⟨l, hl, hli⟩ := hinv.low_le x i hx
        exact ⟨l, by rw [low_pushV, if_neg hxv]; exact hl, hli⟩
    · intro x hx
      rcases List.mem_cons.mp hx with rfl | hx'
      · rw [ind_pushV, if_pos rfl]; rfl
      · have := hinv.stack_vis x hx'
        rw [ind_pushV]
        by_cases hxv : x = v
        · rw [if_pos hxv]; rfl
        · rw [if_neg hxv]; exact this
    · show ((v :: s.stack).Pairwise fun a b => getInd (pushV v s) b < getInd (pushV v s) a)
      rw [List.pairwise_cons]
      constructor
      · intro b hb
        have hbv : b ≠ v := fun h => hvstack (h ▸ hb)
        rw [getInd_pushV_other _ _ _ hbv, getInd_pushV_self]
        obtain ⟨i, hi⟩ := Option.isSome_iff_exists.mp (hinv.stack_vis b hb)
        rw [getInd_eq s b i hi]
        exact hinv.ind_lt b i hi
      · refine List.Pairwise.imp_of_mem ?_ hinv.stack_sorted
        intro a b ha hb hab
        have hav : a ≠ v := fun h => hvstack (h ▸ ha)
        have hbv : b ≠ v := fun h => hvstack (h ▸ hb)
        rw [getInd_pushV_other _ _ _ hav, getInd_pushV_other _ _ _ hbv]
        exact hab
    · show v :: s.onstack = v :: s.stack
      rw [hinv.onstack_eq]
    · show (s.sccs.flatten ++ v :: s.stack).Nodup
      rw [List.nodup_middle, List.nodup_cons]
      constructor
      · intro hv
        rcases List.mem_append.mp hv with h1 | h2
        · obtain ⟨C, hC, hvC⟩ := List.mem_flatten.mp h1
          exact (hvis_ne v (hinv.sccs_vis C hC v hvC)) rfl
        · exact hvstack h2
      · exact hinv.nodups
    · intro C hC x hx
      rw [ind_pushV]
      by_cases hxv : x = v
      · rw [if_pos hxv]; rfl
      · rw [if_neg hxv]; exact hinv.sccs_vis C hC x hx
    · exact hinv.sccs_len
    · exact hinv.sccs_reach
    · intro u hu
      rcases List.mem_cons.mp hu with rfl | hu'
      · refine ⟨u, List.mem_cons_self _ _, ?_, Relation.ReflTransGen.refl⟩
        rw [ind_pushV, if_pos rfl, getLow_pushV_self]
      · obtain ⟨x, hxmem, hxind, hxr⟩ := hinv.lowwit u hu'
        have hxv : x ≠ v := fun h => hvstack (h ▸ hxmem)
        have huv : u ≠ v := fun h => hvstack (h ▸ hu')
        refine ⟨x, List.mem_cons_of_mem _ hxmem, ?_, hxr⟩
        rw [ind_pushV, if_neg hxv, getLow_pushV_other _ _ _ huv]
        exact hxind
    · intro x hx
      rw [ind_pushV] at hx
      by_cases hxv : x = v
      · subst hxv; exact huniv
      · rw [if_neg hxv] at hx
        exact hinv.vis_univ x hx
  refine ⟨hinv', ?_, ?_, ?_, ?_, ?_, ?_⟩
  · intro x hx
    have hxv := hvis_ne x hx
    rw [ind_pushV, if_neg hxv, low_pushV, if_neg hxv]
    exact ⟨rfl, rfl⟩
  · show s.idx < s.idx + 1
    omega
  · rw [ind_pushV, if_pos rfl]
  · intro x i hx1 hx2
    rw [ind_pushV] at hx2
    by_cases hxv : x = v
    · rw [if_pos hxv] at hx2
      cases hx2
      exact le_refl _
    · rw [if_neg hxv] at hx2
      rw [hx2] at hx1
      simp at hx1
  · intro x hx1 hx2
    rw [ind_pushV] at hx1
    by_cases hxv : x = v
    · subst hxv; exact Relation.ReflTransGen.refl
    · rw [if_neg hxv] at hx1
      rw [Option.isNone_iff_eq_none] at hx2
      rw [hx2] at hx1
      simp at hx1
  · exact ⟨[], rfl, fun u hu => absurd hu (List.not_mem_nil u)⟩

theorem tinv_updLowMin (g : Graph) (s : TState) (v : String) (m : Nat)
    (hinv : TInv g s)
    (hwit : v ∈ s.stack → ∃ x, x ∈ s.stack ∧ s.ind x = some (min (getLow s v) m)
      ∧ reach g v x) :
    TInv g (updLowMin v m s) := by
  refine ⟨hinv.ind_lt, ?_, hinv.stack_vis, hinv.stack_sorted, hinv.onstack_eq,
    hinv.nodups, hinv.sccs_vis, hinv.sccs_len, hinv.sccs_reach, ?_, hinv.vis_univ⟩
  · intro x i hx
    by_cases hxv : x = v
    · subst hxv
      obtain ⟨l, hl, hli⟩ := hinv.low_le x i hx
      refine ⟨min (getLow s x) m, low_updLowMin_self x m s, ?_⟩
      rw [getLow_eq s x l hl]
      omega
    · obtain ⟨l, hl, hli⟩ := hinv.low_le x i hx
      exact ⟨l, by rw [low_updLowMin_other _ _ _ _ hxv]; exact hl, hli⟩
  · intro u hu
    by_cases huv : u = v
    · subst huv
      obtain ⟨x, hxmem, hxind, hxr⟩ := hwit hu
      refine ⟨x, hxmem, ?_, hxr⟩
      rw [getLow_updLowMin_self]
      exact hxind
    · obtain ⟨x, hxmem, hxind, hxr⟩ := hinv.lowwit u hu
      refine ⟨x, hxmem, ?_, hxr⟩
      rw [getLow_updLowMin_other _ _ _ _ huv]
      exact hxind

theorem pop_safety (g : Graph) (t : TState) (v : String) (Q rest : List String)
    (hstack : t.stack = Q ++ v :: rest)
    (hinv : TInv g t)
    (hroot : getLow t v = getInd t v)
    (hQ : ∀ u ∈ Q, getLow t v ≤ getLow t u ∧ getLow t u < getInd t u) :
    ∀ u ∈ Q ++ [v], reach g u v := by
  have hsort := hinv.stack_sorted
  rw [hstack, List.pairwise_append] at hsort
  obtain ⟨hsQ, hsVR, hcross⟩ := hsort
  rw [List.pairwise_cons] at hsVR
  obtain ⟨hrest_lt, _⟩ := hsVR
  suffices H : ∀ n, ∀ u, u ∈ Q ++ [v] → getInd t u = n → reach g u v by
    intro u hu
    exact H (getInd t u) u hu rfl
  intro n
  induction n using Nat.strong_induction_on with
  | _ n ih =>
    intro u hu hn
    rcases List.mem_append.mp hu with huQ | huv
    · obtain ⟨hle, hlt⟩ := hQ u huQ
      obtain ⟨x, hxmem, hxind, hxr⟩ :=
        hinv.lowwit u (by rw [hstack]; exact List.mem_append_left _ huQ)
      have hxind' : getInd t x = getLow t u := getInd_eq t x _ hxind
      have hxQ : x ∈ Q ++ [v] := by
        rw [hstack] at hxmem
        rcases List.mem_append.mp hxmem with h1 | h2
        · exact List.mem_append_left _ h1
        · rcases List.mem_cons.mp h2 with rfl | h3
          · exact List.mem_append_right _ (List.mem_cons_self _ _)
          · exfalso
            have h4 := hrest_lt x h3
            rw [hxind'] at h4
            omega
      have hxlt : getInd t x < n := by
        rw [hxind']
        omega
      exact Relation.ReflTransGen.trans hxr (ih (getInd t x) hxlt x hxQ rfl)
    · rcases List.mem_cons.mp huv with rfl | h
      · exact Relation.ReflTransGen.refl
      · cases h

theorem finish_post (g : Graph) (v : String) (s t : TState)
    (hsinv : TInv g s) (hF : FoldInv g v s t) : DfsPost g v s (finishV v t) := by
  obtain ⟨Q, hstack, hQ⟩ := hF.shape
  have hstack_nodup : t.stack.Nodup := hF.inv.nodups.of_append_right
  have hQnodup : (Q ++ v :: s.stack).Nodup := hstack ▸ hstack_nodup
  have hvQ : v ∉ Q := by
    rw [List.nodup_append] at hQnodup
    exact fun hv => hQnodup.2.2 hv (List.mem_cons_self _ _)
  have hvS : v ∉ s.stack := by
    rw [List.nodup_append, List.nodup_cons] at hQnodup
    exact hQnodup.2.1.1
  have hlowv_le : getLow t v ≤ s.idx := by
    obtain ⟨l, hl, hli⟩ := hF.inv.low_le v s.idx hF.ind_v
    rw [getLow_eq _ _ _ hl]
    exact hli
  have hindv : getInd t v = s.idx := getInd_eq _ _ _ hF.ind_v
  by_cases heq : getLow t v = getInd t v
  · -- pop branch
    have hfin : finishV v t
        = { t with
            stack := s.stack
            onstack := (Q ++ [v]).foldl (fun os w => os.erase w) t.onstack
            sccs := if 1 < (Q ++ [v]).length then t.sccs ++ [Q ++ [v]] else t.sccs } := by
      rw [finishV, if_pos heq, hstack, popUntil_eq v Q s.stack hvQ]
    have honstack : (Q ++ [v]).foldl (fun os w => os.erase w) t.onstack = s.stack := by
      rw [hF.inv.onstack_eq, hstack]
      have h : Q ++ v :: s.stack = (Q ++ [v]) ++ s.stack := by simp
      rw [h, eraseFold_append]
    rw [hfin, honstack]
    -- members of the popped component
    have hcomp_stack : ∀ u ∈ Q ++ [v], u ∈ t.stack := by
      intro u hu
      rw [hstack]
      rcases List.mem_append.mp hu with h1 | h2
      · exact List.mem_append_left _ h1
      · rcases List.mem_cons.mp h2 with rfl | h3
        · exact List.mem_append_right _ (List.mem_cons_self _ _)
        · cases h3
    have hcomp_vis : ∀ u ∈ Q ++ [v], (t.ind u).isSome :=
      fun u hu => hF.inv.stack_vis u (hcomp_stack u hu)
    have hpop : ∀ u ∈ Q ++ [v], reach g u v :=
      pop_safety g t v Q s.stack hstack hF.inv heq
        fun u hu => ⟨(hQ u hu).1, (hQ u hu).2.1⟩
    have hfrom_v : ∀ u ∈ Q ++ [v], reach g v u := by
      intro u hu
      rcases List.mem_append.mp hu with h1 | h2
      · -- u ∈ Q is newly visited in this call
        have hvisu := hcomp_vis u hu
        have hsu : (s.ind u).isNone := by
          cases hsu : s.ind u with
          | none => rfl
          | some i =>
            exfalso
            have hfr := (hF.frame u (by rw [hsu]; rfl)).1
            have hlt := hsinv.ind_lt u i hsu
            have : getInd t u = i := by rw [getInd, hfr, hsu]; rfl
            have := (hQ u h1).2.2
            omega
        exact hF.new_reach u hvisu hsu
      · rcases List.mem_cons.mp h2 with rfl | h3
        · exact Relation.ReflTransGen.refl
        · cases h3
    have hmutual : ∀ u ∈ Q ++ [v], ∀ u' ∈ Q ++ [v], reach g u u' :=
      fun u hu u' hu' => Relation.ReflTransGen.trans (hpop u hu) (hfrom_v u' hu')
    have hQs_lt : ∀ u ∈ s.stack, getLow t u < s.idx ∧ getInd t u < s.idx := by
      intro u hu
      obtain ⟨i, hi⟩ := Option.isSome_iff_exists.mp (hsinv.stack_vis u hu)
      have hfr := (hF.frame u (by rw [hi]; rfl)).1
      have hti : t.ind u = some i := by rw [hfr, hi]
      have hilt := hsinv.ind_lt u i hi
      obtain ⟨l, hl, hli⟩ := hF.inv.low_le u i hti
      rw [getLow_eq _ _ _ hl, getInd_eq _ _ _ hti]
      omega
    have hsubl : s.stack.Sublist t.stack := by
      rw [hstack]
      exact List.Sublist.trans (List.sublist_cons_self v s.stack)
        (List.sublist_append_right Q (v :: s.stack))
    have hinv' : TInv g { t with
        stack := s.stack
        onstack := s.stack
        sccs := if 1 < (Q ++ [v]).length then t.sccs ++ [Q ++ [v]] else t.sccs } := by
      refine ⟨hF.inv.ind_lt, hF.inv.low_le, ?_, ?_, rfl, ?_, ?_, ?_, ?_, ?_, hF.inv.vis_univ⟩
      · intro x hx
        exact hF.inv.stack_vis x (hsubl.mem hx)
      · exact hF.inv.stack_sorted.sublist hsubl
      · -- nodups
        by_cases hlen : 1 < (Q ++ [v]).length
        · rw [if_pos hlen]
          have hold := hF.inv.nodups
          rw [hstack] at hold
          simp only [List.flatten_append, List.flatten_cons, List.flatten_nil,
            List.append_nil, List.append_assoc]
          simpa [List.append_assoc] using hold
        · rw [if_neg hlen]
          refine List.Nodup.sublist ?_ hF.inv.nodups
          rw [hstack]
          show (t.sccs.flatten ++ s.stack).Sublist (t.sccs.flatten ++ (Q ++ v :: s.stack))
          refine List.Sublist.append_left ?_ _
          rw [← hstack]
          exact hsubl
      · intro C hC x hx
        by_cases hlen : 1 < (Q ++ [v]).length
        · rw [if_pos hlen] at hC
          rcases List.mem_append.mp hC with h1 | h2
          · exact hF.inv.sccs_vis C h1 x hx
          · rcases List.mem_cons.mp h2 with rfl | h3
            · exact hcomp_vis x hx
            · cases h3
        · rw [if_neg hlen] at hC
          exact hF.inv.sccs_vis C hC x hx
      · intro C hC
        by_cases hlen : 1 < (Q ++ [v]).length
        · rw [if_pos hlen] at hC
          rcases List.mem_append.mp hC with h1 | h2
          · exact hF.inv.sccs_len C h1
          · rcases List.mem_cons.mp h2 with rfl | h3
            · exact hlen
            · cases h3
        · rw [if_neg hlen] at hC
          exact hF.inv.sccs_len C hC
      · intro C hC u hu u' hu'
        by_cases hlen : 1 < (Q ++ [v]).length
        · rw [if_pos hlen] at hC
          rcases List.mem_append.mp hC with h1 | h2
          · exact hF.inv.sccs_reach C h1 u hu u' hu'
          · rcases List.mem_cons.mp h2 with rfl | h3
            · exact hmutual u hu u' hu'
            · cases h3
        · rw [if_neg hlen] at hC
          exact hF.inv.sccs_reach C hC u hu u' hu'
      · -- lowwit for the remaining stack
        intro u hu
        obtain ⟨x, hxmem, hxind, hxr⟩ := hF.inv.lowwit u (hsubl.mem hu)
        have hulow := (hQs_lt u hu).1
        have hxind' : getInd t x = getLow t u := getInd_eq _ _ _ hxind
        have hxS : x ∈ s.stack := by
          rw [hstack] at hxmem
          rcases List.mem_append.mp hxmem with h1 | h2
          · exfalso
            have := (hQ x h1).2.2
            omega
          · rcases List.mem_cons.mp h2 with rfl | h3
            · exfalso
              omega
            · exact h3
        exact ⟨x, hxS, hxind, hxr⟩
    exact ⟨hinv', hF.frame, hF.idx_lt, hF.ind_v, hF.new_lb, hF.new_reach,
      Or.inl ⟨rfl, heq⟩⟩
  · -- no pop: the component rooted at v is still open
    have hfin : finishV v t = t := by rw [finishV, if_neg heq]
    rw [hfin]
    refine ⟨hF.inv, hF.frame, hF.idx_lt, hF.ind_v, hF.new_lb, hF.new_reach,
      Or.inr ⟨Q, hstack, ?_, hQ⟩⟩
    rw [hindv] at heq ⊢
    omega

theorem not_mem_left_of_nodup_append {l₁ l₂ : List String} {a : String}
    (h : (l₁ ++ l₂).Nodup) (ha : a ∈ l₂) : a ∉ l₁ := by
  rw [List.nodup_append] at h
  exact fun hmem => h.2.2 hmem ha

theorem edgeStep_foldInv (g : Graph) (fuel : Nat) (v : String) (s : TState)
    (hv : (s.ind v).isNone)
    (IH : ∀ (w : String) (t t₂ : TState), dfsF g fuel w t = some t₂ → TInv g t →
      (t.ind w).isNone → w ∈ sccUniverse g → DfsPost g w t t₂) :
    ∀ (w : String), w ∈ edgesOf g v → ∀ t t', edgeStep (dfsF g fuel) v t w = some t' →
      FoldInv g v s t → FoldInv g v s t' := by
  intro w hwedge t t' hstep hFt
  have hvnone : s.ind v = none := Option.isNone_iff_eq_none.mp hv
  have hvvis : (t.ind v).isSome := by rw [hFt.ind_v]; rfl
  have hgstep : gstep g v w := hwedge
  obtain ⟨Q, hstack, hQ⟩ := hFt.shape
  have hvQ : v ∉ Q := by
    have h := hFt.inv.nodups.of_append_right
    rw [hstack] at h
    exact not_mem_left_of_nodup_append h (List.mem_cons_self _ _)
  have hsvis_ne : ∀ x : String, (s.ind x).isSome → x ≠ v := by
    intro x hx hxv
    subst hxv
    rw [hvnone] at hx
    simp at hx
  have hQvis : ∀ u ∈ Q, (t.ind u).isSome := by
    intro u hu
    exact hFt.inv.stack_vis u (by rw [hstack]; exact List.mem_append_left _ hu)
  rw [edgeStep] at hstep
  by_cases hwvis : (t.ind w).isNone
  · -- recursive call on an unvisited target
    rw [if_pos hwvis] at hstep
    obtain ⟨t₂, hrun, ht'⟩ := Option.map_eq_some'.mp hstep
    have hwuniv : w ∈ sccUniverse g := target_mem_univ g v w hwedge
    have hpost := IH w t t₂ hrun hFt.inv hwvis hwuniv
    have hwv : w ≠ v := by
      intro h
      rw [h, hFt.ind_v] at hwvis
      simp at hwvis
    have hframe_v := hpost.frame v hvvis
    have hind_v₂ : t₂.ind v = some s.idx := by rw [hframe_v.1, hFt.ind_v]
    have hlow_v₂ : getLow t₂ v = getLow t v := by rw [getLow, hframe_v.2]; rfl
    have hind_w₂ : t₂.ind w = some t.idx := hpost.ind_v
    have hgind_w₂ : getInd t₂ w = t.idx := getInd_eq _ _ _ hind_w₂
    have hlow_w₂_le : getLow t₂ w ≤ t.idx := by
      obtain ⟨l, hl, hli⟩ := hpost.inv.low_le w t.idx hind_w₂
      rw [getLow_eq _ _ _ hl]
      exact hli
    have hlow_v_le : getLow t v ≤ s.idx := by
      obtain ⟨l, hl, hli⟩ := hFt.inv.low_le v s.idx hFt.ind_v
      rw [getLow_eq _ _ _ hl]
      exact hli
    have hidx : s.idx < t.idx := hFt.idx_lt
    have hframeQ : ∀ u ∈ Q, t₂.ind u = t.ind u ∧ t₂.low u = t.low u :=
      fun u hu => hpost.frame u (hQvis u hu)
    have hgQ : ∀ u ∈ Q, getInd t₂ u = getInd t u ∧ getLow t₂ u = getLow t u := by
      intro u hu
      constructor
      · rw [getInd, (hframeQ u hu).1]; rfl
      · rw [getLow, (hframeQ u hu).2]; rfl
    subst ht'
    -- the common witness for the lowlink update
    have hwit : v ∈ t₂.stack → ∃ x, x ∈ t₂.stack ∧
        t₂.ind x = some (min (getLow t₂ v) (getLow t₂ w)) ∧ reach g v x := by
      intro hvstack
      rcases le_or_lt (getLow t₂ v) (getLow t₂ w) with hle | hlt
      · rw [Nat.min_eq_left hle]
        exact hpost.inv.lowwit v hvstack
      · rw [Nat.min_eq_right (le_of_lt hlt)]
        rcases hpost.shape with ⟨hst₂, hweq⟩ | ⟨Qc, hst₂, hltw, hQc⟩
        · exfalso
          rw [hweq, hgind_w₂] at hlt
          rw [hlow_v₂] at hlt
          omega
        · have hwstack : w ∈ t₂.stack := by
            rw [hst₂]
            exact List.mem_append_right _ (List.mem_cons_self _ _)
          obtain ⟨x, hx, hxind, hxr⟩ := hpost.inv.lowwit w hwstack
          exact ⟨x, hx, hxind, Relation.ReflTransGen.head hgstep hxr⟩
    refine ⟨tinv_updLowMin g t₂ v (getLow t₂ w) hpost.inv hwit, ?_, ?_, ?_, ?_, ?_, ?_⟩
    · intro x hx
      have hxv := hsvis_ne x hx
      have htx : (t.ind x).isSome := by
        rw [(hFt.frame x hx).1]
        exact hx
      constructor
      · show t₂.ind x = s.ind x
        rw [(hpost.frame x htx).1, (hFt.frame x hx).1]
      · show (updLowMin v (getLow t₂ w) t₂).low x = s.low x
        rw [low_updLowMin_other _ _ _ _ hxv, (hpost.frame x htx).2, (hFt.frame x hx).2]
    · show s.idx < t₂.idx
      have := hpost.idx_lt
      omega
    · show t₂.ind v = some s.idx
      exact hind_v₂
    · intro x i hx1 hx2
      have hx2' : t₂.ind x = some i := hx2
      cases htx : t.ind x with
      | some j =>
        have : t₂.ind x = some j := by
          rw [hpost.frame x (by rw [htx]; rfl) |>.1, htx]
        rw [hx2'] at this
        cases this
        exact hFt.new_lb x i hx1 htx
      | none =>
        have := hpost.new_lb x i (by rw [htx]; rfl) hx2'
        omega
    · intro x hx1 hx2
      have hx1' : (t₂.ind x).isSome := hx1
      cases htx : t.ind x with
      | some j =>
        exact hFt.new_reach x (by rw [htx]; rfl) hx2
      | none =>
        have := hpost.new_reach x hx1' (by rw [htx]; rfl)
        exact Relation.ReflTransGen.head hgstep this
    · -- shape
      have hlowmin : getLow (updLowMin v (getLow t₂ w) t₂) v
          = min (getLow t₂ v) (getLow t₂ w) := getLow_updLowMin_self _ _ _
      rcases hpost.shape with ⟨hst₂, hweq⟩ | ⟨Qc, hst₂, hltw, hQc⟩
      · -- the child popped its own component: the stack is unchanged
        refine ⟨Q, by rw [stack_updLowMin, hst₂, hstack], ?_⟩
        intro u hu
        have huv : u ≠ v := fun h => hvQ (h ▸ hu)
        have hguL : getLow (updLowMin v (getLow t₂ w) t₂) u = getLow t u := by
          rw [getLow_updLowMin_other _ _ _ _ huv, (hgQ u hu).2]
        have hguI : getInd (updLowMin v (getLow t₂ w) t₂) u = getInd t u := by
          rw [getInd_updLowMin, (hgQ u hu).1]
        obtain ⟨h1, h2, h3⟩ := hQ u hu
        rw [hguL, hguI, hlowmin, hlow_v₂]
        -- here min (getLow t v) (getLow t₂ w) = getLow t v
        rw [hweq, hgind_w₂]
        refine ⟨?_, h2, h3⟩
        have : min (getLow t v) t.idx = getLow t v := Nat.min_eq_left (by omega)
        rw [this]
        exact h1
      · -- the child left a new stack segment
        have hvQc : v ∉ Qc := by
          have h := hpost.inv.nodups.of_append_right
          rw [hst₂, hstack] at h
          exact not_mem_left_of_nodup_append h
            (List.mem_cons_of_mem _ (List.mem_append_right _ (List.mem_cons_self _ _)))
        refine ⟨Qc ++ w :: Q, ?_, ?_⟩
        · rw [stack_updLowMin, hst₂, hstack]
          simp [List.append_assoc]
        · intro u hu
          rcases List.mem_append.mp hu with huc | huwq
          · -- u in the child's new segment
            have huv : u ≠ v := fun h => hvQc (h ▸ huc)
            obtain ⟨h1, h2, h3⟩ := hQc u huc
            rw [getLow_updLowMin_other _ _ _ _ huv, getInd_updLowMin, hlowmin]
            refine ⟨?_, h2, ?_⟩
            · calc min (getLow t₂ v) (getLow t₂ w) ≤ getLow t₂ w := Nat.min_le_right _ _
                _ ≤ getLow t₂ u := h1
            · omega
          · rcases List.mem_cons.mp huwq with rfl | huQ
            · -- u = w
              rw [getLow_updLowMin_other _ _ _ _ hwv, getInd_updLowMin, hlowmin,
                hgind_w₂]
              exact ⟨Nat.min_le_right _ _, by rw [hgind_w₂] at hltw; exact hltw, hidx⟩
            · -- u in this call's earlier segment
              have huv : u ≠ v := fun h => hvQ (h ▸ huQ)
              obtain ⟨h1, h2, h3⟩ := hQ u huQ
              rw [getLow_updLowMin_other _ _ _ _ huv, getInd_updLowMin,
                (hgQ u huQ).1, (hgQ u huQ).2, hlowmin, hlow_v₂]
              refine ⟨?_, h2, h3⟩
              calc min (getLow t v) (getLow t₂ w) ≤ getLow t v := Nat.min_le_left _ _
                _ ≤ getLow t u := h1
  · -- already-visited target
    rw [if_neg hwvis] at hstep
    by_cases honst : t.onstack.contains w
    · rw [if_pos honst] at hstep
      cases hstep
      have hwstack : w ∈ t.stack := by
        rw [← hFt.inv.onstack_eq]
        exact List.mem_of_elem_eq_true honst
      obtain ⟨iw, hiw⟩ := Option.isSome_iff_exists.mp (hFt.inv.stack_vis w hwstack)
      have hgiw : getInd t w = iw := getInd_eq _ _ _ hiw
      have hwit : v ∈ t.stack → ∃ x, x ∈ t.stack ∧
          t.ind x = some (min (getLow t v) (getInd t w)) ∧ reach g v x := by
        intro hvstack
        rcases le_or_lt (getLow t v) (getInd t w) with hle | hlt
        · rw [Nat.min_eq_left hle]
          exact hFt.inv.lowwit v hvstack
        · rw [Nat.min_eq_right (le_of_lt hlt)]
          refine ⟨w, hwstack, ?_, Relation.ReflTransGen.single hgstep⟩
          rw [hgiw, hiw]
      refine ⟨tinv_updLowMin g t v (getInd t w) hFt.inv hwit, ?_, hFt.idx_lt, hFt.ind_v,
        hFt.new_lb, hFt.new_reach, ?_⟩
      · intro x hx
        have hxv := hsvis_ne x hx
        refine ⟨(hFt.frame x hx).1, ?_⟩
        rw [low_updLowMin_other _ _ _ _ hxv]
        exact (hFt.frame x hx).2
      · refine ⟨Q, by rw [stack_updLowMin, hstack], ?_⟩
        intro u hu
        have huv : u ≠ v := fun h => hvQ (h ▸ hu)
        obtain ⟨h1, h2, h3⟩ := hQ u hu
        rw [getLow_updLowMin_other _ _ _ _ huv, getInd_updLowMin, getLow_updLowMin_self]
        refine ⟨?_, h2, h3⟩
        calc min (getLow t v) (getInd t w) ≤ getLow t v := Nat.min_le_left _ _
          _ ≤ getLow t u := h1
    · rw [if_neg honst] at hstep
      cases hstep
      exact hFt

theorem foldEdges_foldInv (g : Graph) (fuel : Nat) (v : String) (s : TState)
    (hv : (s.ind v).isNone)
    (IH : ∀ (w : String) (t t₂ : TState), dfsF g fuel w t = some t₂ → TInv g t →
      (t.ind w).isNone → w ∈ sccUniverse g → DfsPost g w t t₂) :
    ∀ (ws : List String), (∀ w ∈ ws, w ∈ edgesOf g v) →
      ∀ (t t' : TState), ws.foldlM (edgeStep (dfsF g fuel) v) t = some t' →
      FoldInv g v s t → FoldInv g v s t' := by
  intro ws
  induction ws with
  | nil =>
    intro _ t t' hfold hFt
    rw [List.foldlM_nil] at hfold
    cases hfold
    exact hFt
  | cons w ws ih =>
    intro hall t t' hfold hFt
    rw [List.foldlM_cons] at hfold
    obtain ⟨t₁, hstep, hrest⟩ := Option.bind_eq_some.mp hfold
    exact ih (fun w' hw' => hall w' (List.mem_cons_of_mem _ hw')) t₁ t' hrest
      (edgeStep_foldInv g fuel v s hv IH w (hall w (List.mem_cons_self _ _)) t t₁
        hstep hFt)

/-- Main specification of the embedded `dfs`. -/
theorem dfs_spec (g : Graph) : ∀ (fuel : Nat) (v : String) (s s' : TState),
    dfsF g fuel v s = some s' → TInv g s → (s.ind v).isNone → v ∈ sccUniverse g →
    DfsPost g v s s' := by
  intro fuel
  induction fuel with
  | zero =>
    intro v s s' h _ _ _
    simp only [dfsF] at h
    cases h
  | succ fuel ih =>
    intro v s s' hrun hinv hnew huniv
    simp only [dfsF] at hrun
    obtain ⟨t, hfold, hfin⟩ := Option.map_eq_some'.mp hrun
    have hF0 := push_foldInv g s v hinv hnew huniv
    have hFt := foldEdges_foldInv g fuel v s hnew
      (fun w t0 t₂ h1 h2 h3 h4 => ih w t0 t₂ h1 h2 h3 h4)
      (edgesOf g v) (fun w hw => hw) (pushV v s) t hfold hF0
    rw [← hfin]
    exact finish_post g v s t hinv hFt

theorem tinv_init (g : Graph) : TInv g initTState := by
  refine ⟨?_, ?_, ?_, List.Pairwise.nil, rfl, List.nodup_nil, ?_, ?_, ?_, ?_, ?_⟩
  · intro v i h; cases h
  · intro v i h; cases h
  · intro v h; cases h
  · intro C h; cases h
  · intro C h; cases h
  · intro C h; cases h
  · intro u h; cases h
  · intro v h; simp [initTState] at h

theorem scc_fold_tinv (g : Graph) :
    ∀ (roots : List String) (s s' : TState),
      roots.foldlM
        (fun s v => if (s.ind v).isNone then dfsF g (tarjanFuel g) v s else some s)
        s = some s' →
      TInv g s → (∀ v ∈ roots, v ∈ sccUniverse g) → TInv g s' := by
  intro roots
  induction roots with
  | nil =>
    intro s s' h hinv _
    rw [List.foldlM_nil] at h
    cases h
    exact hinv
  | cons r roots ih =>
    intro s s' h hinv hall
    rw [List.foldlM_cons] at h
    obtain ⟨s₁, hstep, hrest⟩ := Option.bind_eq_some.mp h
    have hs₁ : TInv g s₁ := by
      by_cases hr : (s.ind r).isNone
      · rw [if_pos hr] at hstep
        exact (dfs_spec g (tarjanFuel g) r s s₁ hstep hinv hr
          (hall r (List.mem_cons_self _ _))).inv
      · rw [if_neg hr] at hstep
        cases hstep
        exact hinv
    exact ih s₁ s' hrest hs₁ fun v hv => hall v (List.mem_cons_of_mem _ hv)

/-- Soundness of the reported components: they are pairwise disjoint, each
    has at least two distinct vertices drawn from the graph's universe, and
    the vertices of one component are mutually reachable. -/
theorem scc_main (g : Graph) :
    List.Pairwise List.Disjoint (strongly_connected_components g) ∧
    ∀ C ∈ strongly_connected_components g,
      1 < C.length ∧ C.Nodup ∧ (∀ u ∈ C, u ∈ sccUniverse g) ∧
        ∀ u ∈ C, ∀ u' ∈ C, reach g u u' := by
  cases hrun : (sccRoots g).foldlM
      (fun s v => if (s.ind v).isNone then dfsF g (tarjanFuel g) v s else some s)
      initTState with
  | none =>
    have hscc : strongly_connected_components g = [] := by
      rw [strongly_connected_components, hrun]
    rw [hscc]
    exact ⟨List.Pairwise.nil, fun C hC => absurd hC (List.not_mem_nil C)⟩
  | some s' =>
    have hTI : TInv g s' :=
      scc_fold_tinv g (sccRoots g) initTState s' hrun (tinv_init g)
        fun v hv => root_mem_univ g v hv
    have hscc : strongly_connected_components g = s'.sccs := by
      rw [strongly_connected_components, hrun]
    rw [hscc]
    have hflat : s'.sccs.flatten.Nodup := hTI.nodups.of_append_left
    rw [List.nodup_flatten] at hflat
    refine ⟨hflat.2, ?_⟩
    intro C hC
    exact ⟨hTI.sccs_len C hC, hflat.1 C hC,
      fun u hu => hTI.vis_univ u (hTI.sccs_vis C hC u hu),
      hTI.sccs_reach C hC⟩

theorem exists_other {C : List String} {v : String}
    (hlen : 1 < C.length) (hnodup : C.Nodup) (hv : v ∈ C) : ∃ u ∈ C, u ≠ v := by
  cases C with
  | nil => simp at hlen
  | cons a C' =>
    cases C' with
    | nil => simp at hlen
    | cons b C'' =>
      rw [List.nodup_cons] at hnodup
      by_cases hva : v = a
      · subst hva
        refine ⟨b, List.mem_cons_of_mem _ (List.mem_cons_self _ _), ?_⟩
        intro hbv
        exact hnodup.1 (by rw [← hbv]; exact List.mem_cons_self _ _)
      · exact ⟨a, List.mem_cons_self _ _, fun hav => hva (hav ▸ rfl)⟩

/-- C5: for every graph, the components returned by
    `strongly_connected_components` are pairwise disjoint, and every vertex
    of a returned component lies on a nonempty cycle: it has an out-edge to
    some `w` from which a directed path leads back to it. -/
theorem C5_scc_partition (g : Graph) :
    List.Pairwise List.Disjoint (strongly_connected_components g) ∧
    ∀ C ∈ strongly_connected_components g, ∀ v ∈ C,
      ∃ w, gstep g v w ∧ reach g w v := by
  obtain ⟨hdisj, hC⟩ := scc_main g
  refine ⟨hdisj, ?_⟩
  intro C hCmem v hv
  obtain ⟨hlen, hnodup, _, hreach⟩ := hC C hCmem
  obtain ⟨u, hu, huv⟩ := exists_other hlen hnodup hv
  have h1 : reach g v u := hreach v hv u hu
  have h2 : reach g u v := hreach u hu v hv
  rcases Relation.ReflTransGen.cases_head h1 with heq | ⟨w, hw1, hw2⟩
  · exact absurd heq (Ne.symm huv)
  · exact ⟨w, hw1, Relation.ReflTransGen.trans hw2 h2⟩

/-- Witness for C5 on the two-cycle `a ↔ b`. -/
theorem C5_witness :
    List.Pairwise List.Disjoint (strongly_connected_components gPair) ∧
    ∃ w, gstep gPair "a" w ∧ reach gPair w "a" :=
  ⟨(C5_scc_partition gPair).1,
    (C5_scc_partition gPair).2 ["b", "a"] (by decide) "a" (by decide)⟩

/-- C6: strongly connected components of size 1 are never reported: every
    returned component has at least two vertices, and in particular a graph
    consisting of one module `M` with a self-loop yields no reported
    cycle. -/
theorem C6_no_singleton_cycles :
    (∀ (g : Graph), ∀ C ∈ strongly_connected_components g, 1 < C.length) ∧
    ∀ M : String, strongly_connected_components [(M, [M])] = [] := by
  constructor
  · intro g C hC
    exact ((scc_main g).2 C hC).1
  · intro M
    have huniv : sccUniverse [(M, [M])] = [M] := by
      simp [sccUniverse]
    cases hscc : strongly_connected_components [(M, [M])] with
    | nil => rfl
    | cons C rest =>
      exfalso
      have hC : C ∈ strongly_connected_components [(M, [M])] := by
        rw [hscc]
        exact List.mem_cons_self _ _
      obtain ⟨hlen, hnodup, hU, _⟩ := (scc_main [(M, [M])]).2 C hC
      cases C with
      | nil => simp at hlen
      | cons a C' =>
        cases C' with
        | nil => simp at hlen
        | cons b C'' =>
          have ha := hU a (List.mem_cons_self _ _)
          have hb := hU b (List.mem_cons_of_mem _ (List.mem_cons_self _ _))
          rw [huniv] at ha hb
          have ha' : a = M := by simpa using ha
          have hb' : b = M := by simpa using hb
          rw [List.nodup_cons] at hnodup
          exact hnodup.1 (by rw [ha', hb']; exact List.mem_cons_self _ _)

/-- Witness for C6: the two-cycle is reported with its two vertices, and a
    concrete self-loop graph reports nothing. -/
theorem C6_witness :
    1 < (["b", "a"] : List String).length ∧
    strongly_connected_components [("M", ["M"])] = [] :=
  ⟨C6_no_singleton_cycles.1 gPair ["b", "a"] (by decide),
    C6_no_singleton_cycles.2 "M"⟩

/-- C7: a vertex that is not a key of the graph has zero out-edges, is
    never iterated as a DFS root, and never occurs in a returned
    component. -/
theorem C7_external_targets_inert (g : Graph) (v : String)
    (h : v ∉ g.map Prod.fst) :
    edgesOf g v = [] ∧ v ∉ sccRoots g ∧
    ∀ C ∈ strongly_connected_components g, v ∉ C := by
  have hedges : edgesOf g v = [] := by
    rw [edgesOf, alookup_eq_none v g h]
    rfl
  refine ⟨hedges, h, ?_⟩
  intro C hC hvC
  obtain ⟨hlen, hnodup, _, hreach⟩ := (scc_main g).2 C hC
  obtain ⟨u, hu, huv⟩ := exists_other hlen hnodup hvC
  have h1 : reach g v u := hreach v hvC u hu
  rcases Relation.ReflTransGen.cases_head h1 with heq | ⟨w, hw1, _⟩
  · exact absurd heq (Ne.symm huv)
  · exact absurd (hedges ▸ hw1) (List.not_mem_nil w)

/-- Witness for C7 at a vertex absent from the two-cycle graph. -/
theorem C7_witness :
    edgesOf gPair "z" = [] ∧ "z" ∉ sccRoots gPair ∧
    ∀ C ∈ strongly_connected_components gPair, "z" ∉ C :=
  C7_external_targets_inert gPair "z" (by decide)

/-! ## Fuel sufficiency: the fallback branch of the embedding is dead code -/

theorem countP_mono_of_imp {l : List String} {p q : String → Bool}
    (h : ∀ a ∈ l, q a = true → p a = true) : l.countP q ≤ l.countP p := by
  induction l with
  | nil => simp
  | cons a l' ih =>
    rw [List.countP_cons, List.countP_cons]
    have h1 := ih fun a ha => h a (List.mem_cons_of_mem _ ha)
    have h2 : (if q a then 1 else 0) ≤ (if p a then 1 else 0) := by
      by_cases hq : q a = true
      · rw [if_pos hq, if_pos (h a (List.mem_cons_self _ _) hq)]
      · simp [hq]
    omega

theorem countP_lt_of_imp {l : List String} {p q : String → Bool}
    (h : ∀ a ∈ l, q a = true → p a = true) {w : String}
    (hw : w ∈ l) (hpw : p w = true) (hqw : q w = false) :
    l.countP q < l.countP p := by
  induction l with
  | nil => cases hw
  | cons a l' ih =>
    rw [List.countP_cons, List.countP_cons]
    have hmono := countP_mono_of_imp fun a ha => h a (List.mem_cons_of_mem _ ha)
    rcases List.mem_cons.mp hw with rfl | hw'
    · rw [if_pos hpw, hqw]
      simp only [Bool.false_eq_true, if_false]
      omega
    · have := ih (fun a ha => h a (List.mem_cons_of_mem _ ha)) hw'
      have h2 : (if q a then 1 else 0) ≤ (if p a then 1 else 0) := by
        by_cases hq : q a = true
        · rw [if_pos hq, if_pos (h a (List.mem_cons_self _ _) hq)]
        · simp [hq]
      omega

theorem foldEdges_isSome (g : Graph) (fuel : Nat) (v : String) (s : TState)
    (hv : (s.ind v).isNone)
    (HS : ∀ (w : String) (t : TState), TInv g t → (t.ind w).isNone →
      w ∈ sccUniverse g → countUnvisited g t ≤ fuel → (dfsF g fuel w t).isSome) :
    ∀ (ws : List String), (∀ w ∈ ws, w ∈ edgesOf g v) →
      ∀ t : TState, FoldInv g v s t → countUnvisited g t ≤ fuel →
      ∃ t', ws.foldlM (edgeStep (dfsF g fuel) v) t = some t' ∧
        FoldInv g v s t' ∧ countUnvisited g t' ≤ countUnvisited g t := by
  intro ws
  induction ws with
  | nil =>
    intro _ t hFt hcount
    exact ⟨t, by rw [List.foldlM_nil]; rfl, hFt, le_refl _⟩
  | cons w ws ih =>
    intro hall t hFt hcount
    have hwedge := hall w (List.mem_cons_self _ _)
    by_cases hwvis : (t.ind w).isNone
    · -- recursive call
      have hwuniv := target_mem_univ g v w hwedge
      have hsome := HS w t hFt.inv hwvis hwuniv hcount
      obtain ⟨t₂, hrun⟩ := Option.isSome_iff_exists.mp hsome
      have hpost := dfs_spec g fuel w t t₂ hrun hFt.inv hwvis hwuniv
      have hstep : edgeStep (dfsF g fuel) v t w = some (updLowMin v (getLow t₂ w) t₂) := by
        rw [edgeStep, if_pos hwvis, hrun]
        rfl
      have hF₂ := edgeStep_foldInv g fuel v s hv
        (fun w' t0 t₃ h1 h2 h3 h4 => dfs_spec g fuel w' t0 t₃ h1 h2 h3 h4)
        w hwedge t _ hstep hFt
      have hcount₂ : countUnvisited g (updLowMin v (getLow t₂ w) t₂) < countUnvisited g t := by
        show (sccUniverse g).countP (fun x => (t₂.ind x).isNone) < _
        refine countP_lt_of_imp ?_ hwuniv ?_ ?_
        · intro a _ ha
          cases hta : t.ind a with
          | none => rfl
          | some j =>
            rw [(hpost.frame a (by rw [hta]; rfl)).1, hta] at ha
            simp at ha
        · rw [Option.isNone_iff_eq_none.mp hwvis]
          rfl
        · rw [hpost.ind_v]
          rfl
      obtain ⟨t', hfold, hF', hc'⟩ := ih (fun w' hw' => hall w' (List.mem_cons_of_mem _ hw'))
        _ hF₂ (by omega)
      refine ⟨t', ?_, hF', by omega⟩
      rw [List.foldlM_cons, hstep]
      exact hfold
    · by_cases honst : t.onstack.contains w
      · have hstep : edgeStep (dfsF g fuel) v t w = some (updLowMin v (getInd t w) t) := by
          rw [edgeStep, if_neg hwvis, if_pos honst]
        have hF₂ := edgeStep_foldInv g fuel v s hv
          (fun w' t0 t₃ h1 h2 h3 h4 => dfs_spec g fuel w' t0 t₃ h1 h2 h3 h4)
          w hwedge t _ hstep hFt
        obtain ⟨t', hfold, hF', hc'⟩ := ih (fun w' hw' => hall w' (List.mem_cons_of_mem _ hw'))
          _ hF₂ hcount
        refine ⟨t', ?_, hF', hc'⟩
        rw [List.foldlM_cons, hstep]
        exact hfold
      · have hstep : edgeStep (dfsF g fuel) v t w = some t := by
          rw [edgeStep, if_neg hwvis, if_neg honst]
        obtain ⟨t', hfold, hF', hc'⟩ := ih (fun w' hw' => hall w' (List.mem_cons_of_mem _ hw'))
          _ hFt hcount
        refine ⟨t', ?_, hF', hc'⟩
        rw [List.foldlM_cons, hstep]
        exact hfold

theorem dfs_isSome (g : Graph) : ∀ (fuel : Nat) (v : String) (s : TState),
    TInv g s → (s.ind v).isNone → v ∈ sccUniverse g →
    countUnvisited g s ≤ fuel → (dfsF g fuel v s).isSome := by
  intro fuel
  induction fuel with
  | zero =>
    intro v s _ hnew huniv hcount
    exfalso
    have : 0 < countUnvisited g s := by
      rw [countUnvisited, List.countP_pos_iff]
      exact ⟨v, huniv, hnew⟩
    omega
  | succ fuel ih =>
    intro v s hinv hnew huniv hcount
    have hF0 := push_foldInv g s v hinv hnew huniv
    have hcpush : countUnvisited g (pushV v s) ≤ fuel := by
      have hlt : countUnvisited g (pushV v s) < countUnvisited g s := by
        refine countP_lt_of_imp ?_ huniv hnew ?_
        · intro a _ ha
          rw [ind_pushV] at ha
          by_cases hav : a = v
          · rw [if_pos hav] at ha
            simp at ha
          · rw [if_neg hav] at ha
            exact ha
        · rw [ind_pushV, if_pos rfl]
          rfl
      omega
    obtain ⟨t', hfold, _, _⟩ := foldEdges_isSome g fuel v s hnew ih
      (edgesOf g v) (fun w hw => hw) (pushV v s) hF0 hcpush
    simp only [dfsF, hfold]
    rfl

/-- The fuel handed out by `strongly_connected_components` is always
    sufficient: the run never returns `none`, so the `[]` fallback in its
    definition is dead code and the embedding computes exactly what the
    Python recursion computes. -/
theorem scc_run_isSome (g : Graph) :
    ((sccRoots g).foldlM
      (fun (s : TState) (v : String) =>
        if (s.ind v).isNone then dfsF g (tarjanFuel g) v s else some s)
      initTState).isSome := by
  suffices H : ∀ (roots : List String) (s : TState), TInv g s →
      (∀ v ∈ roots, v ∈ sccUniverse g) →
      ((roots.foldlM
        (fun (s : TState) (v : String) =>
          if (s.ind v).isNone then dfsF g (tarjanFuel g) v s else some s)
        s)).isSome by
    exact H (sccRoots g) initTState (tinv_init g) fun v hv => root_mem_univ g v hv
  intro roots
  induction roots with
  | nil =>
    intro s _ _
    rw [List.foldlM_nil]
    rfl
  | cons r roots ih =>
    intro s hinv hall
    rw [List.foldlM_cons]
    by_cases hr : (s.ind r).isNone
    · rw [if_pos hr]
      have hcount : countUnvisited g s ≤ tarjanFuel g := by
        have h1 : countUnvisited g s ≤ (sccUniverse g).length := List.countP_le_length _
        rw [tarjanFuel]
        omega
      have hsome := dfs_isSome g (tarjanFuel g) r s hinv hr
        (hall r (List.mem_cons_self _ _)) hcount
      obtain ⟨s₁, hs₁⟩ := Option.isSome_iff_exists.mp hsome
      rw [hs₁]
      have hpost := dfs_spec g (tarjanFuel g) r s s₁ hs₁ hinv hr
        (hall r (List.mem_cons_self _ _))
      exact ih s₁ hpost.inv fun v hv => hall v (List.mem_cons_of_mem _ hv)
    · rw [if_neg hr]
      exact ih s hinv fun v hv => hall v (List.mem_cons_of_mem _ hv)
